import Mathlib

/-!
Verification of the script execution orchestrator of the sh_runner
repository against its natural-language specification.

The TypeScript sources are shallowly embedded: pure computations become
Lean functions, the effectful operations (process supervision, folder
scanning, the React queue state machine) become explicit functions over
an environment / state record.  JS `number` values that the program
treats as integers are embedded as `Int` (or `Nat` where the source and
spec guarantee non-negativity), strings as `String`, and captured output
streams as `List Char` so that trimming can be reasoned about
structurally.  JS truthiness on numbers (`0` is falsy) is made explicit
via `truthyInt`.
-/

namespace ShRunner

/-- Truthiness of a JS number restricted to integers: every value except
`0` is truthy (embedding of conditions like `data?.timeoutSeconds && ...`
and `profile?.timeoutSeconds || 0` in `src/App.tsx`). -/
def truthyInt (n : Int) : Bool := n != 0

/-! ## Data model (src/types/index.ts) -/

/-- Embedding of the `mode` field of `ExecutionEntry`. -/
inductive RunMode where
  | background
  | terminal
deriving DecidableEq

/-- Embedding of `ExecutionEntry` (src/types/index.ts).  The TS field
`at` is named `atTime` because `at` is a Lean keyword. -/
structure ExecutionEntry where
  atTime : String
  duration : Int
  exitCode : Option Int
  stdout : String
  stderr : String
  timedOut : Bool
  args : String
  mode : RunMode
deriving DecidableEq

/-- Embedding of `ScriptData` (src/types/index.ts): the persisted
per-script record.  `envVars` is an association list standing for the TS
string-keyed record. -/
structure ScriptData where
  path : String
  lastExecution : Option String
  lastDuration : Option Int
  lastOutput : Option String
  lastError : Option String
  lastExitCode : Option Int
  lastTimedOut : Bool
  favorite : Bool
  icon : Option String
  runCount : Nat
  envVars : List (String × String)
  args : String
  timeoutSeconds : Int
  tags : List String
  history : List ExecutionEntry
deriving DecidableEq

/-- Embedding of `FolderProfile` (src/types/index.ts). -/
structure FolderProfile where
  path : String
  defaultArgs : String
  envVars : List (String × String)
  tags : List String
  timeoutSeconds : Int
deriving DecidableEq

/-- The `defaultData` literal of `updateScriptData`
(src/hooks/useStore.ts, lines 84-100). -/
def defaultScriptData (path : String) : ScriptData :=
  { path := path
    lastExecution := none
    lastDuration := none
    lastOutput := none
    lastError := none
    lastExitCode := none
    lastTimedOut := false
    favorite := false
    icon := none
    runCount := 0
    envVars := []
    args := ""
    timeoutSeconds := 0
    tags := []
    history := [] }

/-! ## Effective run parameters (src/App.tsx `scanScripts` / `runScriptNow`)

`scanScripts` (lines 173-204) computes the per-script view fields from
the stored record (`data`, possibly absent) and the matched folder
profile (possibly absent); `runScriptNow` (lines 369-380) then combines
the view's `timeoutSeconds` with the global default. -/

/-- Embedding of `const args = data?.args ?? profile?.defaultArgs ?? ''`
(src/App.tsx line 177).  The `??` operator falls back only on
null / undefined, so a stored record always supplies its `args` string,
even when that string is empty. -/
def effectiveArgs (data : Option ScriptData) (profile : Option FolderProfile) : String :=
  match data with
  | some d => d.args
  | none =>
    match profile with
    | some p => p.defaultArgs
    | none => ""

/-- Modelled from the spec: `args = scriptRecord.args if non-empty else
profile.defaultArgs else ""` (spec section 4.1).  Stated separately so
the code's computation can be compared against it. -/
def specEffectiveArgs (data : Option ScriptData) (profile : Option FolderProfile) : String :=
  let recorded : String :=
    match data with
    | some d => d.args
    | none => ""
  if recorded ≠ "" then recorded
  else
    match profile with
    | some p => p.defaultArgs
    | none => ""

/-- Embedding of the scan-stage timeout computation (src/App.tsx lines
178-180): `data?.timeoutSeconds && data.timeoutSeconds > 0 ?
data.timeoutSeconds : (profile?.timeoutSeconds || 0)`. -/
def scanTimeout (data : Option ScriptData) (profile : Option FolderProfile) : Int :=
  let fallback : Int :=
    match profile with
    | some p => if truthyInt p.timeoutSeconds then p.timeoutSeconds else 0
    | none => 0
  match data with
  | some d =>
    if truthyInt d.timeoutSeconds && decide (d.timeoutSeconds > 0) then d.timeoutSeconds
    else fallback
  | none => fallback

/-- Embedding of the run-stage timeout computation (src/App.tsx lines
371-373): `script.timeoutSeconds && script.timeoutSeconds > 0 ?
script.timeoutSeconds : settings.defaultTimeout`. -/
def runTimeout (scriptTimeout defaultTimeout : Int) : Int :=
  if truthyInt scriptTimeout && decide (scriptTimeout > 0) then scriptTimeout
  else defaultTimeout

/-- Modelled from the spec: `timeoutSeconds = scriptRecord.timeoutSeconds
if > 0 else profile.timeoutSeconds if > 0 else
settings.defaultTimeoutSeconds` (spec section 4.1), with an absent record
or profile contributing no positive override. -/
def specEffectiveTimeout (data : Option ScriptData) (profile : Option FolderProfile)
    (defaultTimeout : Int) : Int :=
  let dt : Int :=
    match data with
    | some d => d.timeoutSeconds
    | none => 0
  let pt : Int :=
    match profile with
    | some p => p.timeoutSeconds
    | none => 0
  if dt > 0 then dt
  else if pt > 0 then pt
  else defaultTimeout

/-! ## Execution history store (src/hooks/useStore.ts `recordExecution`) -/

/-- Embedding of `recordExecution` (src/hooks/useStore.ts lines 173-194)
combined with the read-modify-write merge performed by
`updateScriptData` (lines 102-116): given the current stored record (if
any), the configured `historyLimit` and the new entry, produce the
updated stored record. -/
def recordExecution (current : Option ScriptData) (historyLimit : Nat)
    (path : String) (entry : ExecutionEntry) : ScriptData :=
  let existingHistory : List ExecutionEntry :=
    match current with
    | some c => c.history
    | none => []
  let nextHistory : List ExecutionEntry :=
    if historyLimit = 0 then entry :: existingHistory
    else (entry :: existingHistory).take historyLimit
  let base : ScriptData :=
    match current with
    | some c => c
    | none => defaultScriptData path
  { base with
    lastExecution := some entry.atTime
    lastDuration := some entry.duration
    lastOutput := some entry.stdout
    lastError := some entry.stderr
    lastExitCode := entry.exitCode
    lastTimedOut := entry.timedOut
    runCount := (match current with | some c => c.runCount | none => 0) + 1
    history := nextHistory }

/-! ## Process Supervisor (src/unnamed/part_004 `executeScript`)

The supervisor is effectful; it is embedded as a function over an
explicit description of the spawned process's observable behavior
(`ProcSpec`) and the live-process registry (`runningProcesses`, a map
from script path to child handle, embedded as the list of registered
paths).  Output streams are `List Char` so trimming is structural.  Real
time enters only through the race between the kill timer (armed at
`timeoutSeconds * 1000` ms) and the process's natural exit time, which
`ProcSpec.exitTimeMs` records. -/

/-- Whitespace predicate used by the JS `trim()` call. -/
def isWs (c : Char) : Bool := c.isWhitespace

/-- Embedding of JS `String.prototype.trim`: removes leading and
trailing whitespace. -/
def jsTrim (s : List Char) : List Char :=
  ((s.dropWhile isWs).reverse.dropWhile isWs).reverse

/-- Modelled from the spec: "the final result trims trailing whitespace
from each buffered stream" — removal of trailing whitespace only, for
comparison with the code's `trim()`. -/
def specTrimTrailing (s : List Char) : List Char :=
  (s.reverse.dropWhile isWs).reverse

/-- Line-buffered capture (src/unnamed/part_004 lines 118-126): each
`data` event appends the line plus a newline to the buffer. -/
def lineBuffer (lines : List (List Char)) : List Char :=
  (lines.map (fun l => l ++ ['\n'])).flatten

/-- Embedding of `ExecutionResult` (src/unnamed/part_004 lines 80-87). -/
structure ExecutionResult where
  success : Bool
  exitCode : Int
  stdout : List Char
  stderr : List Char
  duration : Nat
  timedOut : Bool
deriving DecidableEq

/-- Observable behavior of one spawn attempt: `spawnError` is the
message when `command.spawn()` throws; `closeCode` is the code carried
by the `close` event (`none` embeds both a null code and an `error`
event, the cases where the exit status cannot be determined);
`exitTimeMs` is when the process would exit naturally; `wallClockMs` is
the measured wall-clock duration. -/
structure ProcSpec where
  spawnError : Option (List Char)
  exitTimeMs : Nat
  closeCode : Option Int
  stdoutLines : List (List Char)
  stderrLines : List (List Char)
  wallClockMs : Nat
deriving DecidableEq

/-- The guard of `if (timeoutSeconds > 0) { timeoutId = setTimeout(...) }`
(src/unnamed/part_004 line 135): a kill timer is armed exactly when the
timeout is positive. -/
def timerArmed (timeoutSeconds : Nat) : Bool :=
  decide (0 < timeoutSeconds)

/-- The timer callback (lines 136-143) runs — setting `timedOut` and
killing the child — exactly when a timer was armed and its deadline
elapses strictly before the process's natural exit. -/
def killTimerFires (timeoutSeconds : Nat) (p : ProcSpec) : Bool :=
  decide (0 < timeoutSeconds) && decide (timeoutSeconds * 1000 < p.exitTimeMs)

/-- `clearTimeout` (lines 156-158) cancels a still-pending timer: the
timer was armed and the process exited before the deadline. -/
def timerCleared (timeoutSeconds : Nat) (p : ProcSpec) : Bool :=
  timerArmed timeoutSeconds && !killTimerFires timeoutSeconds p

/-- Embedding of `executeScript` (src/unnamed/part_004 lines 92-183)
acting on the live-process registry: returns the `ExecutionResult` the
promise resolves with, together with the registry at resolution time.
The `catch` branch (lines 171-182) yields the spawn-failure result; the
normal branch registers the child, resolves the close code with `?? -1`,
and trims both buffered streams with `trim()`. -/
def executeScript (reg : List String) (scriptPath : String)
    (timeoutSeconds : Nat) (p : ProcSpec) : ExecutionResult × List String :=
  match p.spawnError with
  | some msg =>
    ({ success := false
       exitCode := -1
       stdout := []
       stderr := msg
       duration := p.wallClockMs
       timedOut := false },
     reg.filter (fun q => q ≠ scriptPath))
  | none =>
    let reg1 := if reg.contains scriptPath then reg else reg ++ [scriptPath]
    let timedOut := killTimerFires timeoutSeconds p
    let code : Int := p.closeCode.getD (-1)
    ({ success := decide (code = 0) && !timedOut
       exitCode := code
       stdout := jsTrim (lineBuffer p.stdoutLines)
       stderr := jsTrim (lineBuffer p.stderrLines)
       duration := p.wallClockMs
       timedOut := timedOut },
     reg1.filter (fun q => q ≠ scriptPath))

/-- Embedding of `isScriptRunning` (src/unnamed/part_004 lines 199-201):
membership in the live-process registry. -/
def isScriptRunning (reg : List String) (scriptPath : String) : Bool :=
  reg.contains scriptPath

/-! ## Folder scanner (src/unnamed/part_004 `scanScriptsFolder` /
`scanMultipleFolders`)

The filesystem is the scanner's environment: a `FileSystem` maps an
expanded folder path to `some` list of entry names when the folder
exists and is readable, and to `none` when `exists` is false or
`readDir` fails — both surface as a thrown error inside
`scanScriptsFolder` and are caught by `scanMultipleFolders`.  The TS
sort uses `localeCompare`; its collation is locale-dependent, so the
embedding sorts by code points — no claim here depends on the collation
order itself. -/

/-- Embedding of `expandPath` (src/unnamed/part_004 lines 21-26): a
leading `~/` is replaced by the home directory. -/
def expandPath (path homeDir : String) : String :=
  if path.startsWith "~/" then homeDir ++ path.drop 1 else path

/-- Environment of the scanner: folder listing per expanded path, or
`none` for a missing / unreadable folder. -/
abbrev FileSystem := String → Option (List String)

/-- Lexicographic code-point comparison standing in for
`localeCompare`-based ordering. -/
def charListLe : List Char → List Char → Bool
  | [], _ => true
  | _ :: _, [] => false
  | a :: as, b :: bs =>
    if a.toNat < b.toNat then true
    else if b.toNat < a.toNat then false
    else charListLe as bs

/-- Comparator for the scanner's `sort`. -/
def strLe (a b : String) : Bool := charListLe a.data b.data

/-- Insertion into a sorted list. -/
def insertSorted (x : String) : List String → List String
  | [] => [x]
  | y :: ys => if strLe x y then x :: y :: ys else y :: insertSorted x ys

/-- Embedding of `Array.prototype.sort` with a total comparator. -/
def sortStrings (l : List String) : List String := l.foldr insertSorted []

/-- Embedding of `[...new Set(xs)]`: de-duplication keeping first
occurrences. -/
def dedupKeepFirst (l : List String) : List String :=
  l.foldl (fun acc x => if acc.contains x then acc else acc ++ [x]) []

/-- Embedding of `scanScriptsFolder` (src/unnamed/part_004 lines 28-47):
throws when the folder is missing, otherwise returns the sorted full
paths of the `.sh` entries. -/
def scanScriptsFolder (fs : FileSystem) (homeDir : String)
    (folderPath : String) : Except String (List String) :=
  let expanded := expandPath folderPath homeDir
  match fs expanded with
  | none => .error ("Folder does not exist: " ++ expanded)
  | some entries =>
    .ok (sortStrings ((entries.filter (fun n => n.endsWith ".sh")).map
      (fun n => expanded ++ "/" ++ n)))

/-- The aggregation loop of `scanMultipleFolders` (lines 52-59): each
folder's scripts are appended when its scan succeeds, and a failing
folder is skipped. -/
def collectedScripts (fs : FileSystem) (homeDir : String)
    (folders : List String) : List String :=
  folders.foldl (fun acc f =>
    match scanScriptsFolder fs homeDir f with
    | .ok s => acc ++ s
    | .error _ => acc) []

/-- Embedding of `scanMultipleFolders` (src/unnamed/part_004 lines
49-63): collect per-folder results, skipping failures, then
de-duplicate and sort. -/
def scanMultipleFolders (fs : FileSystem) (homeDir : String)
    (folders : List String) : Except String (List String) :=
  .ok (sortStrings (dedupKeepFirst (collectedScripts fs homeDir folders)))

/-! ## Concurrency Queue Manager (src/App.tsx)

The React state relevant to admission control is the `scripts` array
(with per-script `running` / `queued` flags), the `queue` array of
script ids, and the concurrency ceiling.  All state updates are
serialized through React's event loop, so the manager is embedded as a
step function over `QueueState`; the external events are background
`requestRun` calls (src/App.tsx lines 457-472, background branch), the
completion of a running execution (the tail of `runScriptNow`, line
383-399, which clears the `running` flag), and a firing of the queue
processor effect (lines 483-498).  `promoted` is a ghost log recording,
in order, the ids the queue processor promoted to `Running`; it has no
counterpart in the source and only instruments the proofs. -/

/-- Per-script live flags of the `Script` view objects. -/
structure QScript where
  id : String
  running : Bool
  queued : Bool
deriving DecidableEq

/-- The queue manager's state. -/
structure QueueState where
  scripts : List QScript
  queue : List String
  promoted : List String
deriving DecidableEq

/-- Embedding of `setScripts(prev => prev.map(s => s.id === id ?
{ ...s, running: true, queued: false } : s))`, the mark-running update
of `runScriptNow` (src/App.tsx lines 362-366, combined with the
queued-flag clear of the processor). -/
def setRunning (id : String) (scripts : List QScript) : List QScript :=
  scripts.map (fun s => if s.id = id then { s with running := true, queued := false } else s)

/-- Embedding of `setScripts(prev => prev.map(s => s.id === id ?
{ ...s, queued: true } : s))` (src/App.tsx line 467). -/
def setQueuedFlag (id : String) (scripts : List QScript) : List QScript :=
  scripts.map (fun s => if s.id = id then { s with queued := true } else s)

/-- Embedding of `setScripts(prev => prev.map(s => s.id === id ?
{ ...s, running: false } : s))`, the completion update (src/App.tsx
lines 383-399). -/
def clearRunning (id : String) (scripts : List QScript) : List QScript :=
  scripts.map (fun s => if s.id = id then { s with running := false } else s)

/-- `scripts.filter(s => s.running).length` (src/App.tsx lines 155 and
464). -/
def runningCount (st : QueueState) : Nat :=
  (st.scripts.filter (fun s => s.running)).length

/-- `Math.max(1, settings.maxConcurrent || 1)` (src/App.tsx lines 463
and 484). -/
def effectiveMax (maxConcurrent : Nat) : Nat := max 1 maxConcurrent

/-- Embedding of `requestRun` for `mode = background` (src/App.tsx
lines 457-472): no-op when the script is unknown, already running or
already queued; below the ceiling, mark running (the admitted
`runScriptNow` call); at or above it, append to the queue and set the
`queued` flag. -/
def requestRun (mc : Nat) (st : QueueState) (id : String) : QueueState :=
  match st.scripts.find? (fun s => s.id = id) with
  | none => st
  | some sc =>
    if sc.running || sc.queued then st
    else if runningCount st ≥ effectiveMax mc then
      { st with
        queue := if st.queue.contains id then st.queue else st.queue ++ [id]
        scripts := setQueuedFlag id st.scripts }
    else
      { st with scripts := setRunning id st.scripts }

/-- Completion of a running execution: the `running` flag is cleared
(src/App.tsx lines 383-399); queue and ghost log are untouched. -/
def completeRun (st : QueueState) (id : String) : QueueState :=
  { st with scripts := clearRunning id st.scripts }

/-- Embedding of the queue processor effect (src/App.tsx lines
483-498): nothing happens on an empty queue or at the ceiling;
otherwise the head is popped, and if it still names a known script it
is marked running (and recorded in the ghost log), else it is dropped. -/
def processQueue (mc : Nat) (st : QueueState) : QueueState :=
  match st.queue with
  | [] => st
  | nextId :: rest =>
    if runningCount st ≥ effectiveMax mc then st
    else
      match st.scripts.find? (fun s => s.id = nextId) with
      | none => { st with queue := rest }
      | some _ =>
        { st with
          queue := rest
          scripts := setRunning nextId st.scripts
          promoted := st.promoted ++ [nextId] }

/-- External events driving the queue manager. -/
inductive QueueEvent where
  | request (id : String)
  | complete (id : String)
  | process
deriving DecidableEq

/-- One serialized state transition. -/
def queueStep (mc : Nat) (st : QueueState) : QueueEvent → QueueState
  | .request id => requestRun mc st id
  | .complete id => completeRun st id
  | .process => processQueue mc st

/-- A whole run of the manager over a sequence of events. -/
def queueRun (mc : Nat) (st : QueueState) (evs : List QueueEvent) : QueueState :=
  evs.foldl (queueStep mc) st

/-- Well-formedness of the manager's queue: no duplicate ids (the code
guards every enqueue with `prev.includes(script.id)`), and every queued
id names a known script (enqueueing goes through `find?`, and rescans —
which can drop scripts — filter the queue in the same update,
src/App.tsx line 206). -/
def QueueWF (st : QueueState) : Prop :=
  st.queue.Nodup ∧ ∀ j ∈ st.queue, j ∈ st.scripts.map (fun s => s.id)

/-- FIFO tracking invariant for two fixed scripts `A` and `B`: once `B`
has been promoted, `A` was promoted strictly earlier; until then, either
`A` still sits in front of `B` in the queue, or `A` was already
promoted. -/
def fifoInv (A B : String) (st : QueueState) : Prop :=
  (B ∈ st.promoted → A ∈ st.promoted ∧ st.promoted.indexOf A < st.promoted.indexOf B)
  ∧ (B ∉ st.promoted → ([A, B].Sublist st.queue ∨ A ∈ st.promoted))

/-- Concrete initial state for the admission-bound witness: two idle
scripts, empty queue. -/
def witnessState : QueueState :=
  { scripts := [{ id := "a", running := false, queued := false },
                { id := "b", running := false, queued := false }]
    queue := []
    promoted := [] }

/-- Concrete initial state for the FIFO witness: one running script and
two queued scripts, `A` enqueued before `B`. -/
def fifoWitnessState : QueueState :=
  { scripts := [{ id := "r", running := true, queued := false },
                { id := "A", running := false, queued := true },
                { id := "B", running := false, queued := true }]
    queue := ["A", "B"]
    promoted := [] }

/-! ## Concrete inputs used by witness statements -/

/-- Concrete process behaviors used by closed witness statements. -/
def spawnFailProc : ProcSpec :=
  { spawnError := some ['e', 'r', 'r']
    exitTimeMs := 0
    closeCode := none
    stdoutLines := []
    stderrLines := []
    wallClockMs := 5 }

/-- A process that would run for 10 s, used to exercise the kill timer. -/
def slowProc : ProcSpec :=
  { spawnError := none
    exitTimeMs := 10000
    closeCode := none
    stdoutLines := []
    stderrLines := []
    wallClockMs := 2050 }

/-- A process whose first stdout line carries leading whitespace. -/
def indentedProc : ProcSpec :=
  { spawnError := none
    exitTimeMs := 1
    closeCode := some 0
    stdoutLines := [[' ', 'x']]
    stderrLines := []
    wallClockMs := 1 }

/-! ## Helper lemmas about trimming -/

/-- Head of an append with a non-empty left part. -/
theorem head?_append_left {α : Type} (l m : List α) (h : l ≠ []) :
    (l ++ m).head? = l.head? := by
  cases l <;> simp_all

/-- The head surviving `dropWhile p` fails `p`. -/
theorem head?_dropWhile_false {α : Type} (p : α → Bool) (l : List α) (c : α)
    (h : (l.dropWhile p).head? = some c) : p c = false := by
  induction l with
  | nil => simp at h
  | cons x xs ih =>
    rw [List.dropWhile_cons] at h
    by_cases hx : p x
    · simp [hx] at h
      exact ih h
    · simp [hx] at h
      subst h
      simpa using hx

/-- Every element kept by `takeWhile p` satisfies `p`. -/
theorem all_takeWhile {α : Type} (p : α → Bool) (l : List α) :
    (l.takeWhile p).all p = true := by
  rw [List.all_eq_true]
  intro x hx
  exact List.mem_takeWhile_imp hx

/-- The part of the stream that survives the leading trim splits into
the fully trimmed stream followed by the trailing whitespace. -/
theorem dropWhile_eq_jsTrim_append (l : List Char) :
    l.dropWhile isWs = jsTrim l ++ ((l.dropWhile isWs).reverse.takeWhile isWs).reverse := by
  have h := List.takeWhile_append_dropWhile isWs (l.dropWhile isWs).reverse
  calc l.dropWhile isWs = (l.dropWhile isWs).reverse.reverse := (List.reverse_reverse _).symm
    _ = ((l.dropWhile isWs).reverse.takeWhile isWs
          ++ (l.dropWhile isWs).reverse.dropWhile isWs).reverse := by rw [h]
    _ = ((l.dropWhile isWs).reverse.dropWhile isWs).reverse
          ++ ((l.dropWhile isWs).reverse.takeWhile isWs).reverse := by
        rw [List.reverse_append]
    _ = jsTrim l ++ ((l.dropWhile isWs).reverse.takeWhile isWs).reverse := rfl

/-- Removing a key from the registry makes lookups for it fail. -/
theorem contains_filter_ne (l : List String) (a : String) :
    (l.filter (fun q => q ≠ a)).contains a = false := by
  simp [List.mem_filter]

/-- Removing a key from the registry leaves other keys untouched. -/
theorem mem_filter_ne (l : List String) (a q : String) (hq : q ≠ a) :
    q ∈ l.filter (fun x => x ≠ a) ↔ q ∈ l := by
  simp [List.mem_filter, hq]

/-- `jsTrim` removes only characters from the two ends of the stream,
and everything it removes is whitespace. -/
theorem jsTrim_decomp (l : List Char) :
    ∃ pre post, l = pre ++ jsTrim l ++ post
      ∧ pre.all isWs = true ∧ post.all isWs = true := by
  refine ⟨l.takeWhile isWs, ((l.dropWhile isWs).reverse.takeWhile isWs).reverse, ?_, ?_, ?_⟩
  · conv_lhs => rw [← List.takeWhile_append_dropWhile isWs l]
    rw [List.append_assoc]
    congr 1
    exact dropWhile_eq_jsTrim_append l
  · exact all_takeWhile isWs l
  · rw [List.all_eq_true]
    intro x hx
    rw [List.mem_reverse] at hx
    exact List.mem_takeWhile_imp hx

/-- A non-empty trimmed stream starts with a non-whitespace character. -/
theorem jsTrim_head_not_ws (l : List Char) (c : Char)
    (h : (jsTrim l).head? = some c) : isWs c = false := by
  have hne : jsTrim l ≠ [] := by
    intro hnil
    rw [hnil] at h
    simp at h
  have hm : (l.dropWhile isWs).head? = some c := by
    rw [dropWhile_eq_jsTrim_append l, head?_append_left _ _ hne, h]
  exact head?_dropWhile_false isWs l c hm

/-- A non-empty trimmed stream ends with a non-whitespace character. -/
theorem jsTrim_last_not_ws (l : List Char) (c : Char)
    (h : (jsTrim l).getLast? = some c) : isWs c = false := by
  have hrev : ((l.dropWhile isWs).reverse.dropWhile isWs).head? = some c := by
    have := List.getLast?_reverse ((l.dropWhile isWs).reverse.dropWhile isWs)
    rw [← this]
    exact h
  exact head?_dropWhile_false isWs (l.dropWhile isWs).reverse c hrev

/-! ## Theorems: Process Supervisor -/

/-- C3 (confirmed): `executeScript` always resolves with an
`ExecutionResult` satisfying `success = (exitCode == 0) AND NOT
timedOut`, and whenever the process could not be spawned or its exit
status could not be determined the result carries `exitCode = -1` and
`success = false`. -/
theorem execute_result_contract (reg : List String) (path : String)
    (ts : Nat) (p : ProcSpec) :
    ((executeScript reg path ts p).1).success
        = (decide (((executeScript reg path ts p).1).exitCode = 0)
            && !((executeScript reg path ts p).1).timedOut)
    ∧ (p.spawnError.isSome = true ∨ p.closeCode = none →
        ((executeScript reg path ts p).1).exitCode = -1
        ∧ ((executeScript reg path ts p).1).success = false) := by
  rcases hp : p.spawnError with _ | msg <;> rcases hc : p.closeCode with _ | c <;>
    simp [executeScript, hp, hc]

/-- C3 witness: a concrete failed spawn yields exit code `-1` and
`success = false`. -/
theorem execute_result_contract_witness :
    ((executeScript [] "/s/a.sh" 0 spawnFailProc).1).exitCode = -1
    ∧ ((executeScript [] "/s/a.sh" 0 spawnFailProc).1).success = false :=
  (execute_result_contract [] "/s/a.sh" 0 spawnFailProc).2 (Or.inl (by decide))

/-- C4 (confirmed): a kill timer is armed iff `timeoutSeconds > 0`; with
`timeoutSeconds = 0` no kill ever fires and the result has
`timedOut = false`; with a positive timeout whose deadline elapses
before the natural exit the result has `timedOut = true` and the kill
fires; a process exiting at or before the deadline leaves the kill
unfired and the armed timer is cleared. -/
theorem timeout_timer_semantics (reg : List String) (path : String)
    (ts : Nat) (p : ProcSpec) (h : p.spawnError = none) :
    (timerArmed ts = true ↔ 0 < ts)
    ∧ (ts = 0 →
        killTimerFires ts p = false
        ∧ ((executeScript reg path ts p).1).timedOut = false)
    ∧ (0 < ts → ts * 1000 < p.exitTimeMs →
        ((executeScript reg path ts p).1).timedOut = true
        ∧ killTimerFires ts p = true)
    ∧ (p.exitTimeMs ≤ ts * 1000 →
        killTimerFires ts p = false
        ∧ ((executeScript reg path ts p).1).timedOut = false
        ∧ (0 < ts → timerCleared ts p = true)) := by
  refine ⟨by simp [timerArmed], ?_, ?_, ?_⟩
  · intro h0
    subst h0
    simp [executeScript, h, killTimerFires]
  · intro h0 hdl
    simp [executeScript, h, killTimerFires, h0, hdl]
  · intro hdl
    have hnk : killTimerFires ts p = false := by
      simp [killTimerFires]
      omega
    simp [executeScript, h, hnk, timerCleared, timerArmed]

/-- C4 witness: a 2-second timeout against a process that would run for
10 s fires the kill and marks the result timed out. -/
theorem timeout_timer_semantics_witness :
    ((executeScript [] "/s/a.sh" 2 slowProc).1).timedOut = true
    ∧ killTimerFires 2 slowProc = true :=
  (timeout_timer_semantics [] "/s/a.sh" 2 slowProc rfl).2.2.1 (by decide) (by decide)

/-- C7 counterexample: with a single stdout line carrying leading
whitespace, the buffered stream is `" x\n"`; the code's `trim()` yields
`"x"`, whereas removing only trailing whitespace would keep the leading
space and yield `" x"`.  So the final result does not equal the buffered
stream with only trailing whitespace removed. -/
theorem trim_counterexample :
    ((executeScript [] "/s/a.sh" 0 indentedProc).1).stdout = ['x']
    ∧ specTrimTrailing (lineBuffer indentedProc.stdoutLines) = [' ', 'x']
    ∧ ((executeScript [] "/s/a.sh" 0 indentedProc).1).stdout
        ≠ specTrimTrailing (lineBuffer indentedProc.stdoutLines) := by
  refine ⟨by decide, by decide, by decide⟩

/-- C7 (corrected): the final stdout and stderr equal the line-buffered
captured streams with leading AND trailing whitespace trimmed (JS
`trim()`): only whitespace is removed, only from the two ends, and the
remaining stream neither starts nor ends with whitespace. -/
theorem trim_spec (reg : List String) (path : String) (ts : Nat)
    (p : ProcSpec) (h : p.spawnError = none) :
    ((executeScript reg path ts p).1).stdout = jsTrim (lineBuffer p.stdoutLines)
    ∧ ((executeScript reg path ts p).1).stderr = jsTrim (lineBuffer p.stderrLines)
    ∧ (∃ pre post, lineBuffer p.stdoutLines
          = pre ++ ((executeScript reg path ts p).1).stdout ++ post
        ∧ pre.all isWs = true ∧ post.all isWs = true)
    ∧ (∃ pre post, lineBuffer p.stderrLines
          = pre ++ ((executeScript reg path ts p).1).stderr ++ post
        ∧ pre.all isWs = true ∧ post.all isWs = true)
    ∧ (∀ c, (((executeScript reg path ts p).1).stdout).head? = some c → isWs c = false)
    ∧ (∀ c, (((executeScript reg path ts p).1).stdout).getLast? = some c → isWs c = false)
    ∧ (∀ c, (((executeScript reg path ts p).1).stderr).head? = some c → isWs c = false)
    ∧ (∀ c, (((executeScript reg path ts p).1).stderr).getLast? = some c → isWs c = false) := by
  obtain ⟨se, et, cc, so, st, wc⟩ := p
  simp only at h
  subst h
  exact ⟨rfl, rfl, jsTrim_decomp _, jsTrim_decomp _,
    fun c hc => jsTrim_head_not_ws _ c hc,
    fun c hc => jsTrim_last_not_ws _ c hc,
    fun c hc => jsTrim_head_not_ws _ c hc,
    fun c hc => jsTrim_last_not_ws _ c hc⟩

/-- C7 witness: the amended trimming property evaluated on the concrete
indented process. -/
theorem trim_spec_witness :
    ((executeScript [] "/s/a.sh" 0 indentedProc).1).stdout
      = jsTrim (lineBuffer indentedProc.stdoutLines) :=
  (trim_spec [] "/s/a.sh" 0 indentedProc rfl).1

/-- C10 (confirmed): when `executeScript`'s promise resolves — normal
exit, error event, timeout, or spawn failure — the script path has been
removed from the live-process registry, so `isScriptRunning` is false;
every other path's registration is untouched. -/
theorem registry_cleared_on_resolution (reg : List String) (path : String)
    (ts : Nat) (p : ProcSpec) :
    isScriptRunning ((executeScript reg path ts p).2) path = false
    ∧ (∀ q, q ≠ path → (q ∈ (executeScript reg path ts p).2 ↔ q ∈ reg)) := by
  constructor
  · rcases hp : p.spawnError with _ | msg <;>
      simp only [executeScript, hp, isScriptRunning] <;>
      exact contains_filter_ne _ _
  · intro q hq
    rcases hp : p.spawnError with _ | msg
    · simp only [executeScript, hp]
      rw [mem_filter_ne _ _ _ hq]
      split
      · exact Iff.rfl
      · simp [List.mem_append, hq]
    · simp only [executeScript, hp]
      exact mem_filter_ne _ _ _ hq

/-- C10 witness: resolving an execution of one script removes it from
the registry and leaves another registered script untouched. -/
theorem registry_cleared_on_resolution_witness :
    isScriptRunning ((executeScript ["/other.sh"] "/s/a.sh" 2 slowProc).2) "/s/a.sh" = false
    ∧ ("/other.sh" ∈ (executeScript ["/other.sh"] "/s/a.sh" 2 slowProc).2
        ↔ "/other.sh" ∈ ["/other.sh"]) :=
  ⟨(registry_cleared_on_resolution ["/other.sh"] "/s/a.sh" 2 slowProc).1,
    (registry_cleared_on_resolution ["/other.sh"] "/s/a.sh" 2 slowProc).2
      "/other.sh" (by decide)⟩

/-! ## Scanner membership lemmas -/

/-- Insertion preserves membership up to the inserted element. -/
theorem mem_insertSorted (x a : String) (l : List String) :
    a ∈ insertSorted x l ↔ a = x ∨ a ∈ l := by
  induction l with
  | nil => simp [insertSorted]
  | cons y ys ih =>
    rw [insertSorted]
    split
    · simp
    · simp [ih]
      tauto

/-- Sorting preserves membership. -/
theorem mem_sortStrings (a : String) (l : List String) :
    a ∈ sortStrings l ↔ a ∈ l := by
  induction l with
  | nil => simp [sortStrings]
  | cons y ys ih =>
    rw [sortStrings, List.foldr_cons, mem_insertSorted]
    rw [sortStrings] at ih
    simp [ih]

/-- De-duplication preserves membership. -/
theorem mem_dedupKeepFirst (a : String) (l : List String) :
    a ∈ dedupKeepFirst l ↔ a ∈ l := by
  have key : ∀ (l acc : List String),
      a ∈ l.foldl (fun acc x => if acc.contains x then acc else acc ++ [x]) acc
        ↔ a ∈ acc ∨ a ∈ l := by
    intro l
    induction l with
    | nil => simp
    | cons y ys ih =>
      intro acc
      rw [List.foldl_cons]
      split
      · rename_i hy
        rw [ih]
        simp only [List.mem_cons]
        constructor
        · tauto
        · rintro (h | h | h)
          · exact Or.inl h
          · subst h
            exact Or.inl (by simpa using hy)
          · exact Or.inr h
      · rw [ih]
        simp [List.mem_append]
        tauto
  rw [dedupKeepFirst, key]
  simp

/-- Membership in the aggregation loop: a path is collected exactly when
some folder's scan succeeded with a list containing it. -/
theorem mem_collectedScripts (fs : FileSystem) (homeDir : String)
    (a : String) (folders : List String) :
    a ∈ collectedScripts fs homeDir folders
      ↔ ∃ f, f ∈ folders ∧ ∃ s, scanScriptsFolder fs homeDir f = Except.ok s ∧ a ∈ s := by
  have key : ∀ (folders acc : List String),
      a ∈ folders.foldl (fun acc f =>
          match scanScriptsFolder fs homeDir f with
          | .ok s => acc ++ s
          | .error _ => acc) acc
        ↔ a ∈ acc ∨ ∃ f, f ∈ folders
            ∧ ∃ s, scanScriptsFolder fs homeDir f = Except.ok s ∧ a ∈ s := by
    intro folders
    induction folders with
    | nil => simp
    | cons g gs ih =>
      intro acc
      rw [List.foldl_cons]
      rcases hg : scanScriptsFolder fs homeDir g with e | s
      · simp only [hg]
        rw [ih]
        constructor
        · rintro (h | ⟨f, hf, hs⟩)
          · exact Or.inl h
          · exact Or.inr ⟨f, List.mem_cons_of_mem g hf, hs⟩
        · rintro (h | ⟨f, hf, s, hs, ha⟩)
          · exact Or.inl h
          · rcases List.mem_cons.mp hf with rfl | hf2
            · rw [hg] at hs
              cases hs
            · exact Or.inr ⟨f, hf2, s, hs, ha⟩
      · simp only [hg]
        rw [ih]
        simp only [List.mem_append]
        constructor
        · rintro ((h | h) | ⟨f, hf, hs⟩)
          · exact Or.inl h
          · exact Or.inr ⟨g, List.mem_cons_self g gs, s, hg, h⟩
          · exact Or.inr ⟨f, List.mem_cons_of_mem g hf, hs⟩
        · rintro (h | ⟨f, hf, t, ht, ha⟩)
          · exact Or.inl (Or.inl h)
          · rcases List.mem_cons.mp hf with rfl | hf2
            · rw [hg] at ht
              cases ht
              exact Or.inl (Or.inr ha)
            · exact Or.inr ⟨f, hf2, t, ht, ha⟩
  rw [collectedScripts, key]
  simp

/-! ## Theorems: folder scanner -/

/-- C9 counterexample: with a filesystem in which no folder exists at
all, the single configured folder's scan fails, yet the aggregate scan
still succeeds with the empty list — it reports no error to the caller,
contradicting "reports an error iff no folder is readable". -/
theorem scan_counterexample :
    scanMultipleFolders (fun _ => none) "/home/u" ["/a"] = Except.ok []
    ∧ (∃ e, scanScriptsFolder (fun _ => none) "/home/u" "/a" = Except.error e) := by
  exact ⟨rfl, ⟨"Folder does not exist: " ++ expandPath "/a" "/home/u", rfl⟩⟩

/-- C9 (corrected): the aggregate scan never reports an error: every
missing or unreadable folder is skipped and the result is the sorted,
de-duplicated union of the readable folders' eligible scripts — even
when no folder at all is readable, in which case the result is simply
empty.  A single folder's scan errors exactly when that folder is
missing / unreadable. -/
theorem scanMultipleFolders_spec (fs : FileSystem) (homeDir : String)
    (folders : List String) :
    scanMultipleFolders fs homeDir folders
      = Except.ok (sortStrings (dedupKeepFirst (collectedScripts fs homeDir folders)))
    ∧ (∀ x, x ∈ sortStrings (dedupKeepFirst (collectedScripts fs homeDir folders))
        ↔ ∃ f, f ∈ folders ∧ ∃ s, scanScriptsFolder fs homeDir f = Except.ok s ∧ x ∈ s)
    ∧ (∀ f, (∃ e, scanScriptsFolder fs homeDir f = Except.error e)
        ↔ fs (expandPath f homeDir) = none) := by
  refine ⟨rfl, ?_, ?_⟩
  · intro x
    rw [mem_sortStrings, mem_dedupKeepFirst, mem_collectedScripts]
  · intro f
    rcases hf : fs (expandPath f homeDir) with _ | entries <;>
      simp [scanScriptsFolder, hf]

/-! ## Theorems: effective parameters and history -/

/-- C5 counterexample: for a script whose stored record exists but has an
empty `args` string, and a matched profile with `defaultArgs = "-v"`, the
code computes the empty string while the claimed precedence (record args
only when non-empty) would give `"-v"`.  The `??` fallback in
src/App.tsx line 177 skips only null / undefined, not empty strings. -/
theorem effectiveArgs_counterexample :
    effectiveArgs (some (defaultScriptData "/s/a.sh"))
        (some { path := "/s", defaultArgs := "-v", envVars := [], tags := [],
                timeoutSeconds := 0 }) = ""
    ∧ specEffectiveArgs (some (defaultScriptData "/s/a.sh"))
        (some { path := "/s", defaultArgs := "-v", envVars := [], tags := [],
                timeoutSeconds := 0 }) = "-v" := by
  constructor <;> rfl

/-- C5 (corrected): the effective argument string equals the stored
record's `args` whenever a record exists (even when that string is
empty), the profile's `defaultArgs` when no record exists, and `""`
otherwise.  Consequently the claimed precedence holds exactly when any
existing record has a non-empty `args` string. -/
theorem effectiveArgs_spec (d : Option ScriptData) (p : Option FolderProfile)
    (h : ∀ dd, d = some dd → dd.args ≠ "") :
    effectiveArgs d p = specEffectiveArgs d p := by
  cases d with
  | none =>
    cases p <;> simp [effectiveArgs, specEffectiveArgs]
  | some dd =>
    have hne : dd.args ≠ "" := h dd rfl
    cases p <;> simp [effectiveArgs, specEffectiveArgs, hne]

/-- C5 witness: the amended theorem applied to a concrete stored record
with non-empty args. -/
theorem effectiveArgs_spec_witness :
    effectiveArgs (some { defaultScriptData "/s/a.sh" with args := "-x" }) none
      = specEffectiveArgs (some { defaultScriptData "/s/a.sh" with args := "-x" }) none :=
  effectiveArgs_spec (some { defaultScriptData "/s/a.sh" with args := "-x" }) none
    (fun dd hdd => by cases hdd; decide)

/-- C6 (confirmed): the two-stage timeout computation (scan stage:
record override else profile override; run stage: positive view value
else global default) equals the specified precedence: script-level
override beats folder-level default beats global default, where an
override counts only when strictly positive. -/
theorem timeout_precedence (d : Option ScriptData) (p : Option FolderProfile)
    (dft : Int) :
    runTimeout (scanTimeout d p) dft = specEffectiveTimeout d p dft := by
  rcases d with _ | dd <;> rcases p with _ | pp <;>
    simp only [scanTimeout, runTimeout, specEffectiveTimeout, truthyInt] <;>
    split_ifs <;> simp_all

/-- C8 (confirmed): `recordExecution` prepends the entry (truncating the
rest of the history to `historyLimit` entries when the limit is
positive, keeping everything when it is 0), increments `runCount` by
exactly one, and sets every denormalized last-run field to the
corresponding field of the new head entry `history[0]`. -/
theorem recordExecution_spec (current : Option ScriptData) (limit : Nat)
    (path : String) (entry : ExecutionEntry) :
    (recordExecution current limit path entry).history
        = entry :: (if limit = 0
            then (match current with | some c => c.history | none => [])
            else (match current with | some c => c.history | none => []).take (limit - 1))
    ∧ (recordExecution current limit path entry).history.head? = some entry
    ∧ (recordExecution current limit path entry).history.length
        = (if limit = 0
            then (match current with | some c => c.history | none => []).length + 1
            else min limit
              ((match current with | some c => c.history | none => []).length + 1))
    ∧ (recordExecution current limit path entry).runCount
        = (match current with | some c => c.runCount | none => 0) + 1
    ∧ (recordExecution current limit path entry).lastExecution = some entry.atTime
    ∧ (recordExecution current limit path entry).lastDuration = some entry.duration
    ∧ (recordExecution current limit path entry).lastOutput = some entry.stdout
    ∧ (recordExecution current limit path entry).lastError = some entry.stderr
    ∧ (recordExecution current limit path entry).lastExitCode = entry.exitCode
    ∧ (recordExecution current limit path entry).lastTimedOut = entry.timedOut := by
  cases current <;> cases limit <;>
    simp [recordExecution, defaultScriptData, List.take_succ_cons, List.length_take,
      Nat.succ_sub_one] <;> omega

/-! ## Theorems: Concurrency Queue Manager -/

/-- Per-id updates leave the list of script ids unchanged. -/
theorem ids_mapIf (id : String) (g : QScript → QScript) (hg : ∀ s, (g s).id = s.id)
    (l : List QScript) :
    (l.map (fun s => if s.id = id then g s else s)).map (fun s => s.id)
      = l.map (fun s => s.id) := by
  rw [List.map_map]
  exact List.map_congr_left (fun s _ => by dsimp; split <;> simp [hg])

/-- `setRunning` leaves the id list unchanged. -/
theorem ids_setRunning (id : String) (l : List QScript) :
    (setRunning id l).map (fun s => s.id) = l.map (fun s => s.id) :=
  ids_mapIf id (fun s => { s with running := true, queued := false }) (fun s => rfl) l

/-- `setQueuedFlag` leaves the id list unchanged. -/
theorem ids_setQueuedFlag (id : String) (l : List QScript) :
    (setQueuedFlag id l).map (fun s => s.id) = l.map (fun s => s.id) :=
  ids_mapIf id (fun s => { s with queued := true }) (fun s => rfl) l

/-- `clearRunning` leaves the id list unchanged. -/
theorem ids_clearRunning (id : String) (l : List QScript) :
    (clearRunning id l).map (fun s => s.id) = l.map (fun s => s.id) :=
  ids_mapIf id (fun s => { s with running := false }) (fun s => rfl) l

/-- A per-id update of an id that does not occur is the identity. -/
theorem mapIf_of_not_mem (id : String) (g : QScript → QScript) (l : List QScript)
    (h : id ∉ l.map (fun s => s.id)) :
    l.map (fun s => if s.id = id then g s else s) = l := by
  induction l with
  | nil => rfl
  | cons x xs ih =>
    simp only [List.map_cons, List.mem_cons, not_or] at h
    simp only [List.map_cons]
    rw [if_neg (fun hx => h.1 hx.symm), ih h.2]

/-- With unique ids, marking one script running raises the running
count by at most one. -/
theorem runningLen_setRunning_le (id : String) (l : List QScript)
    (h : (l.map (fun s => s.id)).Nodup) :
    ((setRunning id l).filter (fun s => s.running)).length
      ≤ (l.filter (fun s => s.running)).length + 1 := by
  induction l with
  | nil => simp [setRunning]
  | cons x xs ih =>
    simp only [List.map_cons, List.nodup_cons] at h
    by_cases hx : x.id = id
    · have hxs : setRunning id xs = xs := by
        rw [setRunning]
        exact mapIf_of_not_mem id _ xs (by rw [← hx]; exact h.1)
      rw [setRunning, List.map_cons, if_pos hx]
      rw [show (List.map (fun s => if s.id = id then { s with running := true, queued := false } else s) xs) = setRunning id xs from rfl, hxs]
      simp [List.filter_cons]
      split <;> simp <;> omega
    · rw [setRunning, List.map_cons, if_neg hx]
      rw [show (List.map (fun s => if s.id = id then { s with running := true, queued := false } else s) xs) = setRunning id xs from rfl]
      have := ih h.2
      simp only [List.filter_cons]
      split <;> simp <;> omega

/-- Setting a `queued` flag never changes the running count. -/
theorem runningLen_setQueuedFlag (id : String) (l : List QScript) :
    ((setQueuedFlag id l).filter (fun s => s.running)).length
      = (l.filter (fun s => s.running)).length := by
  induction l with
  | nil => rfl
  | cons x xs ih =>
    rw [setQueuedFlag, List.map_cons]
    rw [show (List.map (fun s => if s.id = id then { s with queued := true } else s) xs) = setQueuedFlag id xs from rfl]
    split <;> simp only [List.filter_cons] <;> split <;> simp_all <;> split <;> simp_all

/-- Clearing a `running` flag never raises the running count. -/
theorem runningLen_clearRunning_le (id : String) (l : List QScript) :
    ((clearRunning id l).filter (fun s => s.running)).length
      ≤ (l.filter (fun s => s.running)).length := by
  induction l with
  | nil => simp [clearRunning]
  | cons x xs ih =>
    rw [clearRunning, List.map_cons]
    rw [show (List.map (fun s => if s.id = id then { s with running := false } else s) xs) = clearRunning id xs from rfl]
    by_cases hx : x.id = id
    · rw [if_pos hx]
      simp only [List.filter_cons]
      rw [if_neg (show ¬(false = true) by decide)]
      refine le_trans ih ?_
      split
      · exact Nat.le_succ_of_le le_rfl
      · exact le_rfl
    · rw [if_neg hx]
      simp only [List.filter_cons]
      split
      · simp only [List.length_cons]
        omega
      · exact ih


/-- One step of the manager preserves id uniqueness and keeps the
running count at or below the effective ceiling. -/
theorem count_nodup_step (mc : Nat) (st : QueueState) (e : QueueEvent)
    (hids : (st.scripts.map (fun s => s.id)).Nodup)
    (h : runningCount st ≤ effectiveMax mc) :
    runningCount (queueStep mc st e) ≤ effectiveMax mc
    ∧ ((queueStep mc st e).scripts.map (fun s => s.id)).Nodup := by
  cases e with
  | request id =>
    rcases hf : st.scripts.find? (fun s => s.id = id) with _ | sc
    · simp only [queueStep, requestRun, hf]
      exact ⟨h, hids⟩
    · simp only [queueStep, requestRun, hf]
      split
      · exact ⟨h, hids⟩
      · split
        · refine ⟨?_, ?_⟩
          · simp only [runningCount, runningLen_setQueuedFlag]
            exact h
          · simp only [ids_setQueuedFlag]
            exact hids
        · rename_i hlt
          refine ⟨?_, ?_⟩
          · have h1 := runningLen_setRunning_le id st.scripts hids
            have h2 : runningCount st < effectiveMax mc := Nat.lt_of_not_le hlt
            simp only [runningCount] at h2 ⊢
            omega
          · simp only [ids_setRunning]
            exact hids
  | complete id =>
    refine ⟨?_, ?_⟩
    · simp only [queueStep, completeRun, runningCount]
      exact le_trans (runningLen_clearRunning_le id st.scripts) h
    · simp only [queueStep, completeRun, ids_clearRunning]
      exact hids
  | process =>
    rcases hq : st.queue with _ | ⟨nextId, rest⟩
    · simp only [queueStep, processQueue, hq]
      exact ⟨h, hids⟩
    · simp only [queueStep, processQueue, hq]
      split
      · exact ⟨h, hids⟩
      · rename_i hlt
        rcases hf : st.scripts.find? (fun s => s.id = nextId) with _ | sc
        · simp only [hf]
          exact ⟨h, hids⟩
        · simp only [hf]
          refine ⟨?_, ?_⟩
          · have h1 := runningLen_setRunning_le nextId st.scripts hids
            have h2 : runningCount st < effectiveMax mc := Nat.lt_of_not_le hlt
            simp only [runningCount] at h2 ⊢
            omega
          · simp only [ids_setRunning]
            exact hids

/-- The step invariant carries over whole event sequences. -/
theorem count_nodup_run (mc : Nat) (st : QueueState) (evs : List QueueEvent)
    (hids : (st.scripts.map (fun s => s.id)).Nodup)
    (h : runningCount st ≤ effectiveMax mc) :
    runningCount (queueRun mc st evs) ≤ effectiveMax mc
    ∧ ((queueRun mc st evs).scripts.map (fun s => s.id)).Nodup := by
  induction evs generalizing st with
  | nil => exact ⟨h, hids⟩
  | cons e evs ih =>
    rw [queueRun, List.foldl_cons]
    have step := count_nodup_step mc st e hids h
    exact ih (queueStep mc st e) step.2 step.1


/-- Appending a fresh element puts its first index at the old length. -/
theorem indexOf_append_self (a : String) (l : List String) (h : a ∉ l) :
    (l ++ [a]).indexOf a = l.length := by
  induction l with
  | nil => simp
  | cons x xs ih =>
    simp only [List.mem_cons, not_or] at h
    rw [List.cons_append, List.indexOf_cons_ne _ (fun hx => h.1 hx.symm)]
    simp [ih h.2]

/-- Every manager step preserves queue well-formedness. -/
theorem queueWF_step (mc : Nat) (st : QueueState) (e : QueueEvent)
    (hwf : QueueWF st) : QueueWF (queueStep mc st e) := by
  obtain ⟨hnd, hmem⟩ := hwf
  cases e with
  | request id =>
    rcases hf : st.scripts.find? (fun s => s.id = id) with _ | sc
    · simp only [queueStep, requestRun, hf]
      exact ⟨hnd, hmem⟩
    · have hsc : sc ∈ st.scripts ∧ sc.id = id := by
        refine ⟨List.mem_of_find?_eq_some hf, ?_⟩
        have := List.find?_some hf
        simpa using this
      simp only [queueStep, requestRun, hf]
      split
      · exact ⟨hnd, hmem⟩
      · split
        · refine ⟨?_, ?_⟩
          · split
            · exact hnd
            · rename_i hc
              have hid : id ∉ st.queue := by
                intro hin
                rw [List.contains_eq_any_beq] at hc
                simp at hc
                exact hc hin
              simp [List.nodup_append, hnd, hid]
          · intro j hj
            rw [ids_setQueuedFlag]
            split at hj
            · exact hmem j hj
            · rcases List.mem_append.mp hj with hj1 | hj2
              · exact hmem j hj1
              · have : j = id := by simpa using hj2
                subst this
                rw [← hsc.2]
                exact List.mem_map_of_mem (fun s => s.id) hsc.1
        · refine ⟨hnd, ?_⟩
          intro j hj
          rw [ids_setRunning]
          exact hmem j hj
  | complete id =>
    refine ⟨hnd, ?_⟩
    intro j hj
    simp only [queueStep, completeRun, ids_clearRunning]
    exact hmem j hj
  | process =>
    rcases hq : st.queue with _ | ⟨nextId, rest⟩
    · simp only [queueStep, processQueue, hq]
      exact ⟨hnd, hmem⟩
    · have hndr : rest.Nodup := by
        rw [hq] at hnd
        exact hnd.of_cons
      have hmemr : ∀ j ∈ rest, j ∈ st.scripts.map (fun s => s.id) := by
        intro j hj
        refine hmem j ?_
        rw [hq]
        exact List.mem_cons_of_mem _ hj
      simp only [queueStep, processQueue, hq]
      split
      · exact ⟨hnd, hmem⟩
      · rcases hf : st.scripts.find? (fun s => s.id = nextId) with _ | sc
        · simp only [hf]
          exact ⟨hndr, hmemr⟩
        · simp only [hf]
          refine ⟨hndr, ?_⟩
          intro j hj
          rw [ids_setRunning]
          exact hmemr j hj

/-- Every manager step preserves the FIFO tracking invariant: the
processor only ever promotes the head of the queue, enqueues only
append, and the guard in `requestRun` prevents duplicate enqueues. -/
theorem fifoInv_step (mc : Nat) (A B : String) (st : QueueState) (e : QueueEvent)
    (hAB : A ≠ B) (hwf : QueueWF st) (hinv : fifoInv A B st) :
    fifoInv A B (queueStep mc st e) := by
  obtain ⟨hnd, hmem⟩ := hwf
  obtain ⟨h1, h2⟩ := hinv
  cases e with
  | request id =>
    rcases hf : st.scripts.find? (fun s => s.id = id) with _ | sc
    · simp only [queueStep, requestRun, hf]
      exact ⟨h1, h2⟩
    · simp only [queueStep, requestRun, hf]
      split
      · exact ⟨h1, h2⟩
      · split
        · refine ⟨h1, ?_⟩
          intro hB
          rcases h2 hB with hsub | hA
          · refine Or.inl ?_
            split
            · exact hsub
            · exact hsub.trans (List.sublist_append_left st.queue [id])
          · exact Or.inr hA
        · exact ⟨h1, h2⟩
  | complete id =>
    exact ⟨h1, h2⟩
  | process =>
    rcases hq : st.queue with _ | ⟨nextId, rest⟩
    · simp only [queueStep, processQueue, hq]
      exact ⟨h1, h2⟩
    · simp only [queueStep, processQueue, hq]
      split
      · exact ⟨h1, h2⟩
      · rcases hf : st.scripts.find? (fun s => s.id = nextId) with _ | sc
        · -- impossible: the head of the queue always names a known script
          simp only [hf]
          exfalso
          have hin : nextId ∈ st.scripts.map (fun s => s.id) := by
            refine hmem nextId ?_
            rw [hq]
            exact List.mem_cons_self _ _
          rcases List.mem_map.mp hin with ⟨t, ht, hid⟩
          have := List.find?_eq_none.mp hf t ht
          simp [hid] at this
        · simp only [hf]
          constructor
          · intro hBp
            rcases List.mem_append.mp hBp with hBp1 | hBp2
            · obtain ⟨hA, hlt⟩ := h1 hBp1
              refine ⟨List.mem_append_left _ hA, ?_⟩
              rw [List.indexOf_append_of_mem hA, List.indexOf_append_of_mem hBp1]
              exact hlt
            · have hBh : B = nextId := by simpa using hBp2
              subst hBh
              by_cases hBp : B ∈ st.promoted
              · obtain ⟨hA, hlt⟩ := h1 hBp
                refine ⟨List.mem_append_left _ hA, ?_⟩
                rw [List.indexOf_append_of_mem hA, List.indexOf_append_of_mem hBp]
                exact hlt
              · rcases h2 hBp with hsub | hA
                · rw [hq] at hnd hsub
                  cases hsub with
                  | cons _ h3 =>
                    exfalso
                    have : B ∈ rest := h3.subset (by simp)
                    exact (List.nodup_cons.mp hnd).1 this
                  | cons₂ _ h3 =>
                    exact absurd rfl hAB
                · refine ⟨List.mem_append_left _ hA, ?_⟩
                  rw [List.indexOf_append_of_mem hA, indexOf_append_self B st.promoted hBp]
                  exact List.indexOf_lt_length.mpr hA
          · intro hBp
            have hBp0 : B ∉ st.promoted := fun hc => hBp (List.mem_append_left _ hc)
            have hBh : B ≠ nextId := by
              intro hc
              exact hBp (List.mem_append_right _ (by simp [hc]))
            rcases h2 hBp0 with hsub | hA
            · rw [hq] at hsub
              cases hsub with
              | cons _ h3 => exact Or.inl h3
              | cons₂ _ h3 =>
                exact Or.inr (List.mem_append_right _ (by simp))
            · exact Or.inr (List.mem_append_left _ hA)

/-- Well-formedness and the FIFO invariant carry over whole event
sequences. -/
theorem fifo_wf_run (mc : Nat) (A B : String) (st : QueueState)
    (evs : List QueueEvent) (hAB : A ≠ B) (hwf : QueueWF st)
    (hinv : fifoInv A B st) :
    QueueWF (queueRun mc st evs) ∧ fifoInv A B (queueRun mc st evs) := by
  induction evs generalizing st with
  | nil => exact ⟨hwf, hinv⟩
  | cons e evs ih =>
    rw [queueRun, List.foldl_cons]
    exact ih (queueStep mc st e) (queueWF_step mc st e hwf)
      (fifoInv_step mc A B st e hAB hwf hinv)

/-- C1 (confirmed): with `settings.maxConcurrent ≥ 1`, unique script
ids, and an initial running count within the bound, the number of
scripts in `Running` state never exceeds `maxConcurrent` under any
sequence of background `requestRun` calls, completions and queue
processor firings: a request starts immediately only below the ceiling
and is otherwise appended to the queue. -/
theorem running_never_exceeds_max (mc : Nat) (st0 : QueueState)
    (evs : List QueueEvent) (hmc : 1 ≤ mc)
    (hids : (st0.scripts.map (fun s => s.id)).Nodup)
    (h0 : runningCount st0 ≤ mc) :
    runningCount (queueRun mc st0 evs) ≤ mc := by
  have heff : effectiveMax mc = mc := max_eq_right hmc
  have := (count_nodup_run mc st0 evs hids (by rw [heff]; exact h0)).1
  rw [heff] at this
  exact this

/-- C1 witness: with a ceiling of 1, requesting two scripts and
processing the queue never yields more than one running script. -/
theorem running_never_exceeds_max_witness :
    1 ≤ 1
    ∧ runningCount (queueRun 1 witnessState
        [QueueEvent.request "a", QueueEvent.request "b", QueueEvent.process,
         QueueEvent.complete "a", QueueEvent.process]) ≤ 1 :=
  ⟨by decide,
    running_never_exceeds_max 1 witnessState
      [QueueEvent.request "a", QueueEvent.request "b", QueueEvent.process,
       QueueEvent.complete "a", QueueEvent.process]
      (by decide) (by decide) (by decide)⟩

/-- C2 (confirmed): queued scripts are promoted to `Running` in strict
FIFO order of enqueue time.  If `A` sits in front of `B` in the queue
(both queued) and the ghost promotion log is empty, then after any
sequence of requests, completions and processor firings, whenever `B`
has been promoted, `A` was promoted strictly earlier: `A` transitions
to `Running` no later than `B`. -/
theorem fifo_promotion_order (mc : Nat) (A B : String) (st0 : QueueState)
    (evs : List QueueEvent) (hAB : A ≠ B) (hwf : QueueWF st0)
    (hq : [A, B].Sublist st0.queue) (hp : st0.promoted = [])
    (hB : B ∈ (queueRun mc st0 evs).promoted) :
    A ∈ (queueRun mc st0 evs).promoted
    ∧ (queueRun mc st0 evs).promoted.indexOf A
        < (queueRun mc st0 evs).promoted.indexOf B := by
  have hinv0 : fifoInv A B st0 := by
    refine ⟨fun hB0 => ?_, fun _ => Or.inl hq⟩
    · rw [hp] at hB0
      simp at hB0
  exact ((fifo_wf_run mc A B st0 evs hAB hwf hinv0).2).1 hB

/-- C2 witness: with ceiling 1, `A` queued ahead of `B`, completions
drive promotions in exactly that order. -/
theorem fifo_promotion_order_witness :
    "A" ∈ (queueRun 1 fifoWitnessState
        [QueueEvent.complete "r", QueueEvent.process,
         QueueEvent.complete "A", QueueEvent.process]).promoted
    ∧ (queueRun 1 fifoWitnessState
        [QueueEvent.complete "r", QueueEvent.process,
         QueueEvent.complete "A", QueueEvent.process]).promoted.indexOf "A"
      < (queueRun 1 fifoWitnessState
        [QueueEvent.complete "r", QueueEvent.process,
         QueueEvent.complete "A", QueueEvent.process]).promoted.indexOf "B" :=
  fifo_promotion_order 1 "A" "B" fifoWitnessState
    [QueueEvent.complete "r", QueueEvent.process,
     QueueEvent.complete "A", QueueEvent.process]
    (by decide) ⟨by decide, by decide⟩ (List.Sublist.refl _) rfl (by decide)

end ShRunner
